import Mathlib

/-!
Shallow embedding of the PDS (Processing and Display System) oscilloscope
core from `src/MCU/pds/pds.cpp`, together with proofs checking the
natural-language specification's claims against it.

Modelling conventions:
* `uint8_t` sample values, `uint16_t` coordinates and `size_t` indices are
  modelled as `ℕ`; no arithmetic in the translated code paths can overflow
  the source's machine widths (sample values are at most 255, coordinates at
  most 799/599, and the Bresenham `int16_t` quantities are bounded by
  ±2398), so no modular reduction is needed except where noted.
* `float` amplitude arithmetic is modelled as exact rational (`ℚ`)
  arithmetic; the `(uint16_t)` cast of a non-negative float is truncation,
  modelled by `Int.floor`/`Int.toNat`.
* the fallible `findTrigger` (returning `SIZE_MAX` on failure) is modelled
  with `Option ℕ`.
* the caller-owned `800×600` output matrix is modelled as a total function
  `ℕ → ℕ → ℕ` (row, column ↦ intensity); the source's writes are bounds
  guarded exactly as in `drawLine`.
* `Serial` logging is pure output and is dropped.
-/

namespace PdsModel

/-- `Pds::MATRIX_WIDTH` (`pds.h`). -/
def MATRIX_WIDTH : ℕ := 800

/-- `Pds::MATRIX_HEIGHT` (`pds.h`). -/
def MATRIX_HEIGHT : ℕ := 600

/-- `Pds::TriggerMode` (`pds.h`). -/
inductive TriggerMode where
  | off
  | rising
  | falling
  | level
deriving DecidableEq

/-- The member state of a `Pds` instance (`pds.h` private fields). -/
structure PdsState where
  triggerMode : TriggerMode
  triggerLevel : ℕ
  amplitudeScale : ℚ
  samplesPerPixel : ℕ
  initFlag : Bool
  triggerDetected : Bool
  triggerPosition : ℕ

/-- `Pds::Pds()` — the constructor's initializer list (pds.cpp lines 23-31). -/
def pdsInit : PdsState :=
  { triggerMode := TriggerMode.off
    triggerLevel := 128
    amplitudeScale := 1
    samplesPerPixel := 1
    initFlag := false
    triggerDetected := false
    triggerPosition := 0 }

/-- `Pds::begin()` (pds.cpp line 39). -/
def pdsBegin (s : PdsState) : PdsState := { s with initFlag := true }

/-- `Pds::setTrigger` (pds.cpp line 57). -/
def setTrigger (s : PdsState) (mode : TriggerMode) (level : ℕ) : PdsState :=
  { s with triggerMode := mode, triggerLevel := level }

/-- `Pds::setAmplitudeScale` (pds.cpp line 73): non-positive scales are
ignored, the previous value is retained. -/
def setAmplitudeScale (s : PdsState) (scale : ℚ) : PdsState :=
  if 0 < scale then { s with amplitudeScale := scale } else s

/-- `Pds::setTimeScale` (pds.cpp line 90): a zero argument is ignored. -/
def setTimeScale (s : PdsState) (spp : ℕ) : PdsState :=
  if 0 < spp then { s with samplesPerPixel := spp } else s

/-- `constrainValue` helper template (pds.cpp lines 11-16). -/
def constrainValue {α : Type} [LinearOrder α] (value minVal maxVal : α) : α :=
  if value < minVal then minVal
  else if maxVal < value then maxVal
  else value

/-- `Pds::scaleAmplitude` (pds.cpp lines 249-260).  Float arithmetic is
modelled exactly over `ℚ`; the `(uint16_t)` cast of the non-negative product
is `Int.floor` followed by `Int.toNat`.  The subtraction
`MATRIX_HEIGHT - 1 - …` never underflows because the clamped value is at
most 255, so `ℕ` subtraction is faithful. -/
def scaleAmplitude (scale : ℚ) (value : ℕ) : ℕ :=
  constrainValue
    (MATRIX_HEIGHT - 1 -
      (Int.floor (constrainValue ((value : ℚ) * scale) 0 255 / 255 *
        ((MATRIX_HEIGHT : ℚ) - 1))).toNat)
    0 (MATRIX_HEIGHT - 1)

/-- The `TRIGGER_RISING` edge test of `Pds::findTrigger` at index `i`
(pds.cpp line 207): `data[i-1] < level && data[i] >= level`. -/
def risingTest (level : ℕ) (data : List ℕ) (i : ℕ) : Bool :=
  decide (data.getD (i - 1) 0 < level ∧ level ≤ data.getD i 0)

/-- The `TRIGGER_FALLING` edge test of `Pds::findTrigger` at index `i`
(pds.cpp line 216). -/
def fallingTest (level : ℕ) (data : List ℕ) (i : ℕ) : Bool :=
  decide (level ≤ data.getD (i - 1) 0 ∧ data.getD i 0 < level)

/-- The `TRIGGER_LEVEL` crossing test of `Pds::findTrigger` at index `i`
(pds.cpp lines 225-226). -/
def levelTest (level : ℕ) (data : List ℕ) (i : ℕ) : Bool :=
  decide ((level ≤ data.getD i 0 ∧ (i = 0 ∨ data.getD (i - 1) 0 < level)) ∨
    (data.getD i 0 < level ∧ (i = 0 ∨ level ≤ data.getD (i - 1) 0)))

/-- First index `i`, scanning `i, i+1, …` for `n` steps, satisfying `p`;
the common shape of the three scan loops in `Pds::findTrigger`. -/
def findFirst (p : ℕ → Bool) : ℕ → ℕ → Option ℕ
  | _, 0 => none
  | i, n + 1 => if p i then some i else findFirst p (i + 1) n

/-- `Pds::findTrigger` (pds.cpp lines 200-238); `none` models `SIZE_MAX`. -/
def findTrigger (s : PdsState) (data : List ℕ) : Option ℕ :=
  if data.length < 2 then none
  else
    match s.triggerMode with
    | TriggerMode.rising =>
        findFirst (risingTest s.triggerLevel data) 1 (data.length - 1)
    | TriggerMode.falling =>
        findFirst (fallingTest s.triggerLevel data) 1 (data.length - 1)
    | TriggerMode.level =>
        findFirst (levelTest s.triggerLevel data) 0 data.length
    | TriggerMode.off => none

/-- The output matrix `uint8_t[MATRIX_HEIGHT][MATRIX_WIDTH]`, as a total
function: row `y`, column `x` ↦ intensity. -/
abbrev OutMatrix : Type := ℕ → ℕ → ℕ

/-- `Pds::clearMatrix` (pds.cpp lines 269-275): every in-range cell is set
to 0; the model leaves (non-existent in C) out-of-range cells unchanged. -/
def clearMatrix (m : OutMatrix) : OutMatrix := fun y x =>
  if y < MATRIX_HEIGHT ∧ x < MATRIX_WIDTH then 0 else m y x

/-- The guarded pixel write inside `Pds::drawLine`'s loop
(pds.cpp lines 309-311). -/
def setPixel (m : OutMatrix) (x y : ℤ) (v : ℕ) : OutMatrix :=
  if 0 ≤ x ∧ x < (MATRIX_WIDTH : ℤ) ∧ 0 ≤ y ∧ y < (MATRIX_HEIGHT : ℤ) then
    fun y0 x0 => if y0 = y.toNat ∧ x0 = x.toNat then v else m y0 x0
  else m

/-- The Bresenham loop of `Pds::drawLine` (pds.cpp lines 307-326), as the
list of points it visits (each visited point is written through the
`setPixel` guard).  Fuel-indexed; `drawLinePoints` supplies enough fuel. -/
def bresVisited (x2 y2 sx sy dx dy : ℤ) : ℕ → ℤ → ℤ → ℤ → List (ℤ × ℤ)
  | 0, _, _, _ => []
  | fuel + 1, x, y, err =>
      (x, y) ::
        (if x = x2 ∧ y = y2 then []
         else
           bresVisited x2 y2 sx sy dx dy fuel
             (if -dy < 2 * err then x + sx else x)
             (if 2 * err < dx then y + sy else y)
             ((if -dy < 2 * err then err - dy else err) +
               (if 2 * err < dx then dx else 0)))

/-- The points `Pds::drawLine` visits (pds.cpp lines 290-327): empty when
the entry bounds check (line 294) rejects an endpoint, else the Bresenham
trace from `(x1,y1)` to `(x2,y2)`. -/
def drawLinePoints (x1 y1 x2 y2 : ℕ) : List (ℤ × ℤ) :=
  if MATRIX_WIDTH ≤ x1 ∨ MATRIX_WIDTH ≤ x2 ∨ MATRIX_HEIGHT ≤ y1 ∨ MATRIX_HEIGHT ≤ y2 then
    []
  else
    bresVisited (x2 : ℤ) (y2 : ℤ)
      (if (x1 : ℤ) < (x2 : ℤ) then 1 else -1)
      (if (y1 : ℤ) < (y2 : ℤ) then 1 else -1)
      |(x2 : ℤ) - (x1 : ℤ)| |(y2 : ℤ) - (y1 : ℤ)|
      (|(x2 : ℤ) - (x1 : ℤ)| + |(y2 : ℤ) - (y1 : ℤ)| + 1).toNat
      (x1 : ℤ) (y1 : ℤ)
      (|(x2 : ℤ) - (x1 : ℤ)| - |(y2 : ℤ) - (y1 : ℤ)|)

/-- `Pds::drawLine` (pds.cpp lines 290-327): write `v` at every visited
point, through the in-loop bounds guard. -/
def drawLine (m : OutMatrix) (x1 y1 x2 y2 v : ℕ) : OutMatrix :=
  (drawLinePoints x1 y1 x2 y2).foldl (fun acc p => setPixel acc p.1 p.2 v) m

/-- The number of iterations of the averaging loop of `Pds::processData`
(pds.cpp line 157): `i` runs while `i < spp && si + i < len`. -/
def sampleCount (len spp si : ℕ) : ℕ := min spp (len - si)

/-- The sum accumulated by the averaging loop (pds.cpp line 158). -/
def avgSum (data : List ℕ) (si cnt : ℕ) : ℕ :=
  (List.range cnt).foldl (fun acc i => acc + data.getD (si + i) 0) 0

/-- `avgValue` of `Pds::processData` (pds.cpp line 162), including the
zero-sample fallback branch. -/
def avgValue (data : List ℕ) (spp si : ℕ) : ℕ :=
  if 0 < sampleCount data.length spp si then
    avgSum data si (sampleCount data.length spp si) / sampleCount data.length spp si
  else data.getD si 0

/-- The trigger search step of `Pds::processData` (pds.cpp lines 119-132):
returns the chosen `startIndex` and the updated trigger state. -/
def triggerScan (s : PdsState) (data : List ℕ) : ℕ × PdsState :=
  if s.triggerMode ≠ TriggerMode.off then
    match findTrigger s data with
    | some p =>
        (p, { s with triggerDetected := true, triggerPosition := p })
    | none => (0, { s with triggerDetected := false })
  else (0, { s with triggerDetected := false })

/-- `pixelsToFill` of `Pds::processData` (pds.cpp lines 135-137). -/
def pixelsToFill (len start spp : ℕ) : ℕ :=
  if (len - start) / spp < MATRIX_WIDTH then (len - start) / spp else MATRIX_WIDTH

/-- The drawing loop of `Pds::processData` (pds.cpp lines 147-169),
fuel-indexed (`processData` supplies fuel `ptf`, enough for the loop to run
to its own exit conditions): arguments `fuel x prevY m`. -/
def drawLoop (data : List ℕ) (len start spp : ℕ) (scale : ℚ) (ptf : ℕ) :
    ℕ → ℕ → ℕ → OutMatrix → OutMatrix
  | 0, _, _, m => m
  | fuel + 1, x, prevY, m =>
      if x < ptf then
        if len ≤ start + x * spp then m
        else
          drawLoop data len start spp scale ptf fuel (x + 1)
            (scaleAmplitude scale (avgValue data spp (start + x * spp)))
            (drawLine m (x - 1) prevY x
              (scaleAmplitude scale (avgValue data spp (start + x * spp))) 255)
      else m

/-- The body of `Pds::processData` after the parameter check and the
`clearMatrix` call (pds.cpp lines 119-172); `m1` is the cleared matrix. -/
def processBody (s : PdsState) (data : List ℕ) (m1 : OutMatrix) :
    Bool × PdsState × OutMatrix :=
  if pixelsToFill data.length (triggerScan s data).1 s.samplesPerPixel = 0 then
    (false, (triggerScan s data).2, m1)
  else
    (true, (triggerScan s data).2,
      drawLoop data data.length (triggerScan s data).1 s.samplesPerPixel
        s.amplitudeScale
        (pixelsToFill data.length (triggerScan s data).1 s.samplesPerPixel)
        (pixelsToFill data.length (triggerScan s data).1 s.samplesPerPixel) 1
        (scaleAmplitude s.amplitudeScale (data.getD (triggerScan s data).1 0)) m1)

/-- `Pds::processData` (pds.cpp lines 108-173).  The parameter check
(line 110) precedes the `clearMatrix` call (line 116); the model returns
(result, final state, final matrix). -/
def processData (s : PdsState) (data : List ℕ) (m : OutMatrix) :
    Bool × PdsState × OutMatrix :=
  if s.initFlag = false ∨ data.length = 0 then (false, s, m)
  else processBody s data (clearMatrix m)

/-- `Pds::getTriggerStatus` (pds.cpp lines 179-181). -/
def getTriggerStatus (s : PdsState) : Bool := s.triggerDetected

/-- `Pds::getTriggerPosition` (pds.cpp lines 187-189). -/
def getTriggerPosition (s : PdsState) : ℕ := s.triggerPosition

/-- An initialized instance: constructor followed by `begin()`. -/
def sReady : PdsState := pdsBegin pdsInit

/-- A dirty output matrix: every cell holds 7. -/
def mSeven : OutMatrix := fun _ _ => 7

/-- An initialized instance configured for a rising trigger at level 128
with 2 samples per pixel. -/
def sRise : PdsState := setTrigger (setTimeScale sReady 2) TriggerMode.rising 128

/-- An initialized instance configured for a level trigger at 200. -/
def sLevel : PdsState := setTrigger sReady TriggerMode.level 200

/-- The amplitude mapper exactly as claim C3 words it (spec §4.2):
`scaled = clamp(sample*scale, 0, 255)`, then
`y = round((H-1) - (scaled/255)*(H-1))` clamped to `[0, H-1]`.  This
definition follows the specification's words, for comparison with
`scaleAmplitude`, which follows the source. -/
def scaleAmplitudeSpec (scale : ℚ) (value : ℕ) : ℕ :=
  (constrainValue
    (round (((MATRIX_HEIGHT : ℚ) - 1) -
      constrainValue ((value : ℚ) * scale) 0 255 / 255 * ((MATRIX_HEIGHT : ℚ) - 1)))
    0 ((MATRIX_HEIGHT : ℤ) - 1)).toNat

/-- One-unit adjacency of consecutive rasterized cells: each coordinate
changes by at most one and the cell is distinct from its predecessor. -/
def adjStep (p q : ℤ × ℤ) : Prop :=
  (q.1 - p.1 = 1 ∨ q.1 - p.1 = 0 ∨ q.1 - p.1 = -1) ∧
  (q.2 - p.2 = 1 ∨ q.2 - p.2 = 0 ∨ q.2 - p.2 = -1) ∧
  ¬(q.1 = p.1 ∧ q.2 = p.2)

/-- Correctness package for a run of the Bresenham loop that starts `rx`
horizontal and `ry` vertical units away from the endpoint `(x2, y2)` and is
expected to visit `n + 1` cells: the visited list has length `n + 1`, starts
at the current point, steps one-unit-adjacently, and stays inside the
axis-aligned box spanned by the current point and the endpoint. -/
def bresOk (x2 y2 sx sy : ℤ) (rx ry n : ℕ) (L : List (ℤ × ℤ)) : Prop :=
  L.length = n + 1 ∧
  L.head? = some (x2 - sx * rx, y2 - sy * ry) ∧
  List.Chain' adjStep L ∧
  ∀ p ∈ L, ∃ a b : ℕ, a ≤ rx ∧ b ≤ ry ∧ p = (x2 - sx * a, y2 - sy * b)

/-- The configuration invariant of spec §3. -/
def configInvariant (s : PdsState) : Prop :=
  0 < s.amplitudeScale ∧ 1 ≤ s.samplesPerPixel

/-- A configuration-interface call (`begin`/setters of `Pds`). -/
inductive ConfigCall where
  | callBegin
  | callTrigger (mode : TriggerMode) (level : ℕ)
  | callAmplitude (scale : ℚ)
  | callTime (spp : ℕ)

/-- Apply one configuration call to the instance state. -/
def applyCall (s : PdsState) : ConfigCall → PdsState
  | ConfigCall.callBegin => pdsBegin s
  | ConfigCall.callTrigger mode level => setTrigger s mode level
  | ConfigCall.callAmplitude scale => setAmplitudeScale s scale
  | ConfigCall.callTime spp => setTimeScale s spp

end PdsModel

namespace PdsModel

/-! ### Helper lemmas -/

theorem constrainValue_mem {α : Type} [LinearOrder α] (v lo hi : α) (h : lo ≤ hi) :
    lo ≤ constrainValue v lo hi ∧ constrainValue v lo hi ≤ hi := by
  unfold constrainValue
  split_ifs with h1 h2
  · exact ⟨le_refl lo, h⟩
  · exact ⟨h, le_refl hi⟩
  · exact ⟨le_of_not_lt h1, le_of_not_lt h2⟩

theorem constrainValue_id {α : Type} [LinearOrder α] (v lo hi : α)
    (h1 : ¬v < lo) (h2 : ¬hi < v) : constrainValue v lo hi = v := by
  unfold constrainValue
  rw [if_neg h1, if_neg h2]

theorem findFirst_eq_some (p : ℕ → Bool) :
    ∀ (n i j : ℕ), findFirst p i n = some j ↔
      i ≤ j ∧ j < i + n ∧ p j = true ∧ ∀ k, i ≤ k → k < j → p k = false := by
  intro n
  induction n with
  | zero =>
    intro i j
    constructor
    · intro h
      simp [findFirst] at h
    · rintro ⟨h1, h2, -⟩
      exact absurd h2 (by omega)
  | succ n ih =>
    intro i j
    simp only [findFirst]
    by_cases h : p i = true
    · rw [if_pos h]
      constructor
      · intro hs
        injection hs with hs
        subst hs
        exact ⟨le_refl _, by omega, h, fun k hk1 hk2 => absurd hk1 (by omega)⟩
      · rintro ⟨h1, _h2, _h3, h4⟩
        rcases eq_or_lt_of_le h1 with rfl | hlt
        · rfl
        · exact absurd h (by simp [h4 i (le_refl i) hlt])
    · rw [if_neg h]
      rw [ih (i + 1) j]
      constructor
      · rintro ⟨h1, h2, h3, h4⟩
        refine ⟨by omega, by omega, h3, ?_⟩
        intro k hk1 hk2
        rcases eq_or_lt_of_le hk1 with rfl | hlt
        · exact eq_false_of_ne_true h
        · exact h4 k (by omega) hk2
      · rintro ⟨h1, h2, h3, h4⟩
        have hij : i + 1 ≤ j := by
          rcases eq_or_lt_of_le h1 with rfl | hlt
          · exact absurd h3 h
          · omega
        exact ⟨hij, by omega, h3, fun k hk1 hk2 => h4 k (by omega) hk2⟩

theorem findFirst_eq_none (p : ℕ → Bool) :
    ∀ (n i : ℕ), findFirst p i n = none ↔ ∀ k, i ≤ k → k < i + n → p k = false := by
  intro n
  induction n with
  | zero =>
    intro i
    simp only [findFirst]
    exact ⟨fun _ k hk1 hk2 => absurd hk2 (by omega), fun _ => trivial⟩
  | succ n ih =>
    intro i
    simp only [findFirst]
    by_cases h : p i = true
    · rw [if_pos h]
      constructor
      · intro hs
        exact absurd hs (by simp)
      · intro hall
        exact absurd h (by simp [hall i (le_refl i) (by omega)])
    · rw [if_neg h]
      rw [ih (i + 1)]
      constructor
      · intro hall k hk1 hk2
        rcases eq_or_lt_of_le hk1 with rfl | hlt
        · exact eq_false_of_ne_true h
        · exact hall k (by omega) (by omega)
      · intro hall k hk1 hk2
        exact hall k (by omega) (by omega)

end PdsModel

namespace PdsModel

/-! ### Claim theorems: trigger detection -/

/-- C2: for `mode = Level` and every buffer of length ≥ 2, `findTrigger`
returns index 0, regardless of the buffer contents and of the trigger
level: the level-crossing test at index 0 is always true. -/
theorem levelTrigger_returns_zero (s : PdsState) (data : List ℕ)
    (hmode : s.triggerMode = TriggerMode.level) (hlen : 2 ≤ data.length) :
    findTrigger s data = some 0 := by
  unfold findTrigger
  rw [if_neg (by omega), hmode]
  obtain ⟨n, hn⟩ : ∃ n, data.length = n + 1 := ⟨data.length - 1, by omega⟩
  rw [hn]
  simp only [findFirst]
  rw [if_pos]
  simp only [levelTest, decide_eq_true_eq]
  rcases le_or_lt s.triggerLevel (data.getD 0 0) with h | h
  · exact Or.inl ⟨h, Or.inl trivial⟩
  · exact Or.inr ⟨h, Or.inl trivial⟩

/-- Witness for C2 at a concrete input: a constant buffer below the level
still triggers at position 0. -/
theorem levelTrigger_returns_zero_witness :
    findTrigger sLevel [5, 5, 5] = some 0 :=
  levelTrigger_returns_zero sLevel [5, 5, 5] rfl (by decide)

/-- C5: for `mode = Rising`, `findTrigger` returns the first index
`i ∈ [1, length)` with `buffer[i-1] < level ≤ buffer[i]`, and returns
"not found" (`none`) when `length < 2` or no such index exists. -/
theorem risingTrigger_spec (s : PdsState) (data : List ℕ)
    (hmode : s.triggerMode = TriggerMode.rising) :
    (∀ i, findTrigger s data = some i ↔
      2 ≤ data.length ∧ 1 ≤ i ∧ i < data.length ∧
      data.getD (i - 1) 0 < s.triggerLevel ∧ s.triggerLevel ≤ data.getD i 0 ∧
      ∀ j, 1 ≤ j → j < i →
        ¬(data.getD (j - 1) 0 < s.triggerLevel ∧ s.triggerLevel ≤ data.getD j 0)) ∧
    (findTrigger s data = none ↔
      data.length < 2 ∨ ∀ i, 1 ≤ i → i < data.length →
        ¬(data.getD (i - 1) 0 < s.triggerLevel ∧ s.triggerLevel ≤ data.getD i 0)) := by
  unfold findTrigger
  rw [hmode]
  by_cases hl : data.length < 2
  · rw [if_pos hl]
    constructor
    · intro i
      constructor
      · intro h
        exact absurd h (by simp)
      · rintro ⟨h2, -⟩
        omega
    · exact ⟨fun _ => Or.inl hl, fun _ => rfl⟩
  · rw [if_neg hl]
    constructor
    · intro i
      rw [findFirst_eq_some]
      constructor
      · rintro ⟨h1, h2, h3, h4⟩
        simp only [risingTest, decide_eq_true_eq] at h3
        refine ⟨by omega, h1, by omega, h3.1, h3.2, ?_⟩
        intro j hj1 hj2 hc
        have := h4 j hj1 hj2
        simp only [risingTest, decide_eq_false_iff_not] at this
        exact this hc
      · rintro ⟨h0, h1, h2, h3, h4, h5⟩
        refine ⟨h1, by omega, by simp only [risingTest, decide_eq_true_eq]; exact ⟨h3, h4⟩, ?_⟩
        intro k hk1 hk2
        simp only [risingTest, decide_eq_false_iff_not]
        exact h5 k hk1 hk2
    · rw [findFirst_eq_none]
      constructor
      · intro hall
        refine Or.inr ?_
        intro i hi1 hi2 hc
        have := hall i hi1 (by omega)
        simp only [risingTest, decide_eq_false_iff_not] at this
        exact this hc
      · rintro (h | hall)
        · omega
        · intro k hk1 hk2
          simp only [risingTest, decide_eq_false_iff_not]
          exact hall k hk1 (by omega)

/-- Witness for C5 at a concrete input: the rising trigger on `[0, 255]`
at level 128 fires at index 1. -/
theorem risingTrigger_spec_witness :
    findTrigger sRise [0, 255] = some 1 :=
  ((risingTrigger_spec sRise [0, 255] rfl).1 1).mpr
    ⟨by decide, le_refl 1, by decide, by decide, by decide,
      fun j hj1 hj2 => absurd hj1 (by omega)⟩

/-! ### Claim theorems: pixel-column count and configuration -/

/-- C6: the number of fillable pixel columns equals
`min(W, (length - start) / samplesPerPixel)` (integer division); with
`samplesPerPixel = 1` this is `min(W, length - start)`; and when it is 0
the whole processing call fails. -/
theorem pixelsToFill_spec :
    (∀ len start spp, pixelsToFill len start spp =
      min MATRIX_WIDTH ((len - start) / spp)) ∧
    (∀ len start, pixelsToFill len start 1 = min MATRIX_WIDTH (len - start)) ∧
    (∀ s data m,
      pixelsToFill data.length (triggerScan s data).1 s.samplesPerPixel = 0 →
      (processData s data m).1 = false) := by
  have hmin : ∀ len start spp, pixelsToFill len start spp =
      min MATRIX_WIDTH ((len - start) / spp) := by
    intro len start spp
    unfold pixelsToFill
    split <;> omega
  refine ⟨hmin, ?_, ?_⟩
  · intro len start
    rw [hmin]
    simp [Nat.div_one]
  · intro s data m hptf
    unfold processData
    split
    · rfl
    · unfold processBody
      rw [if_pos hptf]

/-- Witness for C6's third conjunct at a concrete input (2 samples after the
trigger point, 2 samples per pixel: zero columns, call fails). -/
theorem pixelsToFill_spec_witness :
    (processData sRise [0, 255] mSeven).1 = false :=
  pixelsToFill_spec.2.2 sRise [0, 255] mSeven (by decide)

/-- C8: the configuration invariant `amplitudeScale > 0 ∧ samplesPerPixel ≥ 1`
holds after construction and after any sequence of configuration calls;
`setAmplitudeScale` with a non-positive argument and `setTimeScale` with a
zero argument are identities (prior value retained), so a rejected value
never changes the result of a later processing call. -/
theorem configInvariant_spec :
    configInvariant pdsInit ∧
    (∀ calls : List ConfigCall, configInvariant (calls.foldl applyCall pdsInit)) ∧
    (∀ s scale, scale ≤ 0 → setAmplitudeScale s scale = s) ∧
    (∀ s, setTimeScale s 0 = s) ∧
    (∀ s scale data m, scale ≤ 0 →
      processData (setAmplitudeScale s scale) data m = processData s data m) ∧
    (∀ s data m, processData (setTimeScale s 0) data m = processData s data m) := by
  have hinit : configInvariant pdsInit := by
    constructor
    · norm_num [pdsInit]
    · norm_num [pdsInit]
  have hstep : ∀ s c, configInvariant s → configInvariant (applyCall s c) := by
    intro s c h
    cases c with
    | callBegin => exact ⟨h.1, h.2⟩
    | callTrigger mode level => exact ⟨h.1, h.2⟩
    | callAmplitude scale =>
        simp only [applyCall, setAmplitudeScale]
        split
        · next hq => exact ⟨hq, h.2⟩
        · exact h
    | callTime spp =>
        simp only [applyCall, setTimeScale]
        split
        · next hq => exact ⟨h.1, hq⟩
        · exact h
  have hfold : ∀ (calls : List ConfigCall) (s : PdsState), configInvariant s →
      configInvariant (calls.foldl applyCall s) := by
    intro calls
    induction calls with
    | nil => intro s h; exact h
    | cons c calls ih => intro s h; exact ih (applyCall s c) (hstep s c h)
  have hamp : ∀ s scale, scale ≤ 0 → setAmplitudeScale s scale = s := by
    intro s scale hle
    unfold setAmplitudeScale
    rw [if_neg (by linarith)]
  have htime : ∀ s : PdsState, setTimeScale s 0 = s := by
    intro s
    unfold setTimeScale
    rw [if_neg (by omega)]
  refine ⟨hinit, fun calls => hfold calls pdsInit hinit, hamp, htime, ?_, ?_⟩
  · intro s scale data m hle
    rw [hamp s scale hle]
  · intro s data m
    rw [htime s]

end PdsModel

namespace PdsModel

/-! ### Claim theorems: error paths and state updates -/

/-- C9: when `processData` detects a trigger but then fails because zero
pixel columns are fillable, the stored trigger state has already been
overwritten: the failing call returns `false` and the post-state's
`triggerDetected`/`triggerPosition` describe this call's trigger search. -/
theorem failedCall_overwrites_trigger (s : PdsState) (data : List ℕ)
    (m : OutMatrix) (p : ℕ)
    (hinit : s.initFlag = true) (hne : data.length ≠ 0)
    (hmode : s.triggerMode ≠ TriggerMode.off)
    (hfind : findTrigger s data = some p)
    (hptf : pixelsToFill data.length p s.samplesPerPixel = 0) :
    (processData s data m).1 = false ∧
    getTriggerStatus (processData s data m).2.1 = true ∧
    getTriggerPosition (processData s data m).2.1 = p := by
  have hscan : triggerScan s data =
      (p, { s with triggerDetected := true, triggerPosition := p }) := by
    unfold triggerScan
    rw [if_pos hmode, hfind]
  unfold processData
  rw [if_neg (by simp [hinit, hne])]
  unfold processBody
  rw [hscan]
  rw [if_pos hptf]
  exact ⟨rfl, rfl, rfl⟩

/-- Witness for C9 at a concrete input: rising trigger at index 1 of
`[0, 255]` with 2 samples per pixel gives zero fillable columns; the call
fails yet reports the fresh trigger result. -/
theorem failedCall_overwrites_trigger_witness :
    (processData sRise [0, 255] mSeven).1 = false ∧
    getTriggerStatus (processData sRise [0, 255] mSeven).2.1 = true ∧
    getTriggerPosition (processData sRise [0, 255] mSeven).2.1 = 1 :=
  failedCall_overwrites_trigger sRise [0, 255] mSeven 1 rfl (by decide)
    (by decide) (by decide) (by decide)

/-- C10: in the drawing loop, for every column `x ∈ [1, pixelsToFill)` the
anchor index `start + x·spp` is in bounds, the averaging run reads only
in-bounds indices, contains at least one sample, and the zero-sample
fallback branch of `avgValue` is not taken. -/
theorem drawLoopReads_inBounds (data : List ℕ) (start spp x : ℕ)
    (hspp : 1 ≤ spp) (hstart : start < data.length) (_hx1 : 1 ≤ x)
    (hx2 : x < pixelsToFill data.length start spp) :
    start + x * spp < data.length ∧
    1 ≤ sampleCount data.length spp (start + x * spp) ∧
    (∀ i, i < sampleCount data.length spp (start + x * spp) →
      start + x * spp + i < data.length) ∧
    avgValue data spp (start + x * spp) =
      avgSum data (start + x * spp) (sampleCount data.length spp (start + x * spp)) /
        sampleCount data.length spp (start + x * spp) := by
  have hdiv : x + 1 ≤ (data.length - start) / spp := by
    unfold pixelsToFill at hx2
    split at hx2 <;> omega
  have hmul : (x + 1) * spp ≤ data.length - start :=
    (Nat.le_div_iff_mul_le (by omega : 0 < spp)).mp hdiv
  rw [Nat.succ_mul] at hmul
  have hsi : start + x * spp + spp ≤ data.length := by omega
  have h1 : start + x * spp < data.length := by omega
  have h2 : 1 ≤ sampleCount data.length spp (start + x * spp) := by
    unfold sampleCount
    omega
  refine ⟨h1, h2, ?_, ?_⟩
  · intro i hi
    unfold sampleCount at hi
    omega
  · unfold avgValue
    rw [if_pos (by omega)]

/-- Witness for C10 at a concrete input: buffer of length 3, `start = 0`,
one sample per pixel, column `x = 1`. -/
theorem drawLoopReads_inBounds_witness :
    0 + 1 * 1 < ([3, 4, 5] : List ℕ).length ∧
    1 ≤ sampleCount ([3, 4, 5] : List ℕ).length 1 (0 + 1 * 1) ∧
    (∀ i, i < sampleCount ([3, 4, 5] : List ℕ).length 1 (0 + 1 * 1) →
      0 + 1 * 1 + i < ([3, 4, 5] : List ℕ).length) ∧
    avgValue [3, 4, 5] 1 (0 + 1 * 1) =
      avgSum [3, 4, 5] (0 + 1 * 1) (sampleCount ([3, 4, 5] : List ℕ).length 1 (0 + 1 * 1)) /
        sampleCount ([3, 4, 5] : List ℕ).length 1 (0 + 1 * 1) :=
  drawLoopReads_inBounds [3, 4, 5] 0 1 1 (le_refl 1) (by decide) (le_refl 1) (by decide)

/-- C1 (counterexample): `processData` on an initialized instance with an
empty buffer returns failure but does **not** clear the matrix — the
parameter check precedes the `clearMatrix` call, so a dirty cell survives. -/
theorem processEmpty_matrix_not_cleared :
    (processData sReady [] mSeven).1 = false ∧
    (processData sReady [] mSeven).2.2 0 0 = 7 ∧
    ¬(processData sReady [] mSeven).2.2 0 0 = 0 := by decide

/-- C1 (amended): `processData` with an uninitialized instance or an empty
buffer returns failure immediately and leaves state and matrix untouched
(not cleared); on every call that passes the input check the matrix is
cleared to zero, even when the call then fails for insufficient data. -/
theorem processClear_spec :
    (∀ s data m, (s.initFlag = false ∨ data.length = 0) →
      processData s data m = (false, s, m)) ∧
    (∀ s data m, s.initFlag = true → data.length ≠ 0 →
      pixelsToFill data.length (triggerScan s data).1 s.samplesPerPixel = 0 →
      (processData s data m).1 = false ∧
      ∀ y x, y < MATRIX_HEIGHT → x < MATRIX_WIDTH →
        (processData s data m).2.2 y x = 0) := by
  constructor
  · intro s data m h
    unfold processData
    rw [if_pos h]
  · intro s data m hinit hne hptf
    unfold processData
    rw [if_neg (by simp [hinit, hne])]
    unfold processBody
    rw [if_pos hptf]
    refine ⟨rfl, ?_⟩
    intro y x hy hx
    show clearMatrix m y x = 0
    unfold clearMatrix
    rw [if_pos ⟨hy, hx⟩]

/-- C3 (counterexample): at sample 2 with scale 1 the code's mapper gives
row 595 (truncation), while the claimed round-based formula gives 594. -/
theorem scaleAmplitude_not_round :
    scaleAmplitude 1 2 = 595 ∧ scaleAmplitudeSpec 1 2 = 594 ∧
    ¬scaleAmplitude 1 2 = scaleAmplitudeSpec 1 2 := by
  have hc : constrainValue (((2 : ℕ) : ℚ) * 1) 0 255 = 2 := by
    unfold constrainValue
    norm_num
  have h1 : scaleAmplitude 1 2 = 595 := by
    unfold scaleAmplitude
    rw [hc]
    have hf : Int.floor ((2 : ℚ) / 255 * ((MATRIX_HEIGHT : ℚ) - 1)) = 4 := by
      rw [Int.floor_eq_iff]
      constructor
      · norm_num [MATRIX_HEIGHT]
      · norm_num [MATRIX_HEIGHT]
    rw [hf]
    unfold constrainValue
    rw [show Int.toNat 4 = 4 from rfl]
    norm_num [MATRIX_HEIGHT]
  have h2 : scaleAmplitudeSpec 1 2 = 594 := by
    unfold scaleAmplitudeSpec
    rw [hc]
    have hf : round (((MATRIX_HEIGHT : ℚ) - 1) - (2 : ℚ) / 255 * ((MATRIX_HEIGHT : ℚ) - 1)) =
        594 := by
      rw [round_eq, Int.floor_eq_iff]
      constructor
      · norm_num [MATRIX_HEIGHT]
      · norm_num [MATRIX_HEIGHT]
    rw [hf]
    unfold constrainValue
    norm_num [MATRIX_HEIGHT]
    rw [show Int.toNat 594 = 594 from rfl]
  exact ⟨h1, h2, by rw [h1, h2]; omega⟩

/-- C3 (amended): for samples in `[0,255]` and positive scale, the mapper
computes `scaled = clamp(sample·scale, 0, 255)` and
`y = (H-1) - ⌊(scaled/255)·(H-1)⌋` (truncation, not rounding; the final
clamp to `[0, H-1]` is a no-op); scale ≥ 255/sample saturates to `y = 0`
and small products saturate to `y = H-1`. -/
theorem scaleAmplitude_truncates (scale : ℚ) (value : ℕ)
    (_hv : value ≤ 255) (hs : 0 < scale) :
    scaleAmplitude scale value =
      MATRIX_HEIGHT - 1 -
        (Int.floor (constrainValue ((value : ℚ) * scale) 0 255 / 255 *
          ((MATRIX_HEIGHT : ℚ) - 1))).toNat ∧
    (255 ≤ (value : ℚ) * scale → scaleAmplitude scale value = 0) ∧
    ((value : ℚ) * scale * ((MATRIX_HEIGHT : ℚ) - 1) < 255 →
      scaleAmplitude scale value = MATRIX_HEIGHT - 1) := by
  have hbounds := constrainValue_mem ((value : ℚ) * scale) 0 255 (by norm_num)
  set t := constrainValue ((value : ℚ) * scale) 0 255 with ht
  have hq0 : (0 : ℚ) ≤ t / 255 := div_nonneg hbounds.1 (by norm_num)
  have hfl0 : 0 ≤ Int.floor (t / 255 * ((MATRIX_HEIGHT : ℚ) - 1)) := by
    apply Int.floor_nonneg.mpr
    apply mul_nonneg hq0
    norm_num [MATRIX_HEIGHT]
  have hfl599 : Int.floor (t / 255 * ((MATRIX_HEIGHT : ℚ) - 1)) ≤ 599 := by
    have harg : t / 255 * ((MATRIX_HEIGHT : ℚ) - 1) ≤ 599 := by
      have h1 : t / 255 ≤ 1 := by
        rw [div_le_one (by norm_num : (0:ℚ) < 255)]
        exact hbounds.2
      have h2 : ((MATRIX_HEIGHT : ℚ) - 1) = 599 := by norm_num [MATRIX_HEIGHT]
      rw [h2]
      nlinarith [hbounds.1]
    calc Int.floor (t / 255 * ((MATRIX_HEIGHT : ℚ) - 1)) ≤ Int.floor (599 : ℚ) :=
          Int.floor_le_floor harg
      _ = 599 := by norm_num
  have hnoop : scaleAmplitude scale value =
      MATRIX_HEIGHT - 1 -
        (Int.floor (t / 255 * ((MATRIX_HEIGHT : ℚ) - 1))).toNat := by
    unfold scaleAmplitude
    rw [← ht]
    apply constrainValue_id
    · omega
    · simp only [MATRIX_HEIGHT]
      omega
  refine ⟨hnoop, ?_, ?_⟩
  · intro hsat
    have ht255 : t = 255 := by
      rw [ht]
      unfold constrainValue
      split_ifs with h1 h2
      · linarith
      · rfl
      · linarith
    rw [hnoop, ht255]
    norm_num [MATRIX_HEIGHT]
  · intro hsmall
    have h599 : ((MATRIX_HEIGHT : ℚ) - 1) = 599 := by norm_num [MATRIX_HEIGHT]
    rw [h599] at hsmall
    have hvn : (0 : ℚ) ≤ (value : ℚ) * scale := by positivity
    have hlt255 : (value : ℚ) * scale ≤ 255 := by linarith
    have htid : t = (value : ℚ) * scale := by
      rw [ht]
      apply constrainValue_id
      · linarith
      · linarith
    have hfl : Int.floor (t / 255 * ((MATRIX_HEIGHT : ℚ) - 1)) = 0 := by
      rw [Int.floor_eq_zero_iff, Set.mem_Ico, h599, htid]
      constructor
      · positivity
      · rw [div_mul_eq_mul_div, div_lt_one (by norm_num : (0:ℚ) < 255)]
        linarith
    rw [hnoop, hfl]
    rfl

/-- Witness for C3's amended theorem: sample 2 at scale 255 saturates the
clamp, so the mapper returns the top row. -/
theorem scaleAmplitude_truncates_witness : scaleAmplitude 255 2 = 0 :=
  (scaleAmplitude_truncates 255 2 (by norm_num) (by norm_num)).2.1 (by norm_num)

end PdsModel

namespace PdsModel

/-! ### Claim theorems: write bounds -/

theorem setPixel_out_cell (m : OutMatrix) (xz yz : ℤ) (v : ℕ) (y x : ℕ)
    (h : MATRIX_WIDTH ≤ x ∨ MATRIX_HEIGHT ≤ y) :
    setPixel m xz yz v y x = m y x := by
  unfold setPixel
  split
  · next hb =>
    show (if y = yz.toNat ∧ x = xz.toNat then v else m y x) = m y x
    rw [if_neg]
    rintro ⟨rfl, rfl⟩
    simp only [MATRIX_WIDTH, MATRIX_HEIGHT] at h hb
    omega
  · rfl

theorem foldl_setPixel_out_cell (v : ℕ) (y x : ℕ)
    (h : MATRIX_WIDTH ≤ x ∨ MATRIX_HEIGHT ≤ y) :
    ∀ (L : List (ℤ × ℤ)) (m : OutMatrix),
      (L.foldl (fun acc p => setPixel acc p.1 p.2 v) m) y x = m y x := by
  intro L
  induction L with
  | nil => intro m; rfl
  | cons p L ih =>
      intro m
      rw [List.foldl_cons, ih, setPixel_out_cell m p.1 p.2 v y x h]

theorem drawLine_out_cell (m : OutMatrix) (x1 y1 x2 y2 v : ℕ) (y x : ℕ)
    (h : MATRIX_WIDTH ≤ x ∨ MATRIX_HEIGHT ≤ y) :
    drawLine m x1 y1 x2 y2 v y x = m y x := by
  unfold drawLine
  exact foldl_setPixel_out_cell v y x h _ m

theorem drawLoop_out_cell (data : List ℕ) (len start spp : ℕ) (scale : ℚ)
    (ptf : ℕ) (y x : ℕ) (h : MATRIX_WIDTH ≤ x ∨ MATRIX_HEIGHT ≤ y) :
    ∀ (fuel xc prevY : ℕ) (m : OutMatrix),
      drawLoop data len start spp scale ptf fuel xc prevY m y x = m y x := by
  intro fuel
  induction fuel with
  | zero => intro xc prevY m; rfl
  | succ fuel ih =>
      intro xc prevY m
      simp only [drawLoop]
      split
      · split
        · rfl
        · rw [ih, drawLine_out_cell _ _ _ _ _ _ _ _ h]
      · rfl

theorem clearMatrix_out_cell (m : OutMatrix) (y x : ℕ)
    (h : MATRIX_WIDTH ≤ x ∨ MATRIX_HEIGHT ≤ y) : clearMatrix m y x = m y x := by
  unfold clearMatrix
  rw [if_neg]
  rintro ⟨hy, hx⟩
  omega

/-- C7: a segment with either endpoint outside `[0,W)×[0,H)` is skipped
entirely (no cell written, no partial clipping); consequently a processing
call never changes any cell outside `[0,W)×[0,H)` — every written
coordinate satisfies `0 ≤ x < W` and `0 ≤ y < H`. -/
theorem drawBounds_spec :
    (∀ m x1 y1 x2 y2 v,
      (MATRIX_WIDTH ≤ x1 ∨ MATRIX_WIDTH ≤ x2 ∨ MATRIX_HEIGHT ≤ y1 ∨ MATRIX_HEIGHT ≤ y2) →
      drawLine m x1 y1 x2 y2 v = m) ∧
    (∀ s data m y x, MATRIX_WIDTH ≤ x ∨ MATRIX_HEIGHT ≤ y →
      (processData s data m).2.2 y x = m y x) := by
  constructor
  · intro m x1 y1 x2 y2 v h
    unfold drawLine drawLinePoints
    rw [if_pos h, List.foldl_nil]
  · intro s data m y x h
    unfold processData
    split
    · rfl
    · unfold processBody
      split
      · exact clearMatrix_out_cell m y x h
      · show drawLoop _ _ _ _ _ _ _ _ _ (clearMatrix m) y x = m y x
        rw [drawLoop_out_cell _ _ _ _ _ _ _ _ h, clearMatrix_out_cell m y x h]

end PdsModel

namespace PdsModel

/-! ### Bresenham run lemmas (for claim C4) -/

theorem adjStep_mk (px py qx qy : ℤ)
    (h1 : qx - px = 1 ∨ qx - px = 0 ∨ qx - px = -1)
    (h2 : qy - py = 1 ∨ qy - py = 0 ∨ qy - py = -1)
    (h3 : ¬(qx = px ∧ qy = py)) : adjStep (px, py) (qx, qy) :=
  ⟨h1, h2, h3⟩

theorem bres_run_x (x2 y2 sx sy dx dy : ℤ) (hsx : sx = 1 ∨ sx = -1)
    (hsy : sy = 1 ∨ sy = -1) (hdy : 0 ≤ dy) (hlt : dy < dx) :
    ∀ (rx ry fuel : ℕ), rx < fuel → (ry : ℤ) ≤ dy →
      -dx ≤ 2 * (dy * rx - dx * ry) →
      bresOk x2 y2 sx sy rx ry rx
        (bresVisited x2 y2 sx sy dx dy fuel (x2 - sx * rx) (y2 - sy * ry)
          (dx - dy + (dy * rx - dx * ry))) := by
  intro rx
  induction rx with
  | zero =>
    intro ry fuel hfuel hry hinv
    have hdx1 : 1 ≤ dx := by omega
    have hry0 : ry = 0 := by
      by_contra hne
      have h1 : (1 : ℤ) ≤ (ry : ℤ) := by
        have : 1 ≤ ry := Nat.one_le_iff_ne_zero.mpr hne
        exact_mod_cast this
      have hmul : dx ≤ dx * (ry : ℤ) := le_mul_of_one_le_right (by omega) h1
      simp only [Nat.cast_zero, mul_zero, zero_sub] at hinv
      linarith
    subst hry0
    obtain ⟨f, rfl⟩ : ∃ f, fuel = f + 1 := ⟨fuel - 1, by omega⟩
    unfold bresOk
    simp only [Nat.cast_zero, mul_zero, sub_zero, sub_self, add_zero]
    simp only [bresVisited]
    simp only [and_self, if_true]
    refine ⟨rfl, rfl, List.chain'_singleton _, ?_⟩
    intro p hp
    rw [List.mem_singleton] at hp
    subst hp
    exact ⟨0, 0, le_refl 0, le_refl 0, by simp⟩
  | succ r ih =>
    intro ry fuel hfuel hry hinv
    obtain ⟨f, rfl⟩ : ∃ f, fuel = f + 1 := ⟨fuel - 1, by omega⟩
    have hf : r < f := by omega
    have hdx1 : 1 ≤ dx := by omega
    have hr1 : ((r + 1 : ℕ) : ℤ) = (r : ℤ) + 1 := by push_cast; ring
    have hxne : ¬(x2 - sx * ((r + 1 : ℕ) : ℤ) = x2 ∧ y2 - sy * (ry : ℤ) = y2) := by
      rintro ⟨hc, -⟩
      rcases hsx with h | h <;> rw [h, hr1] at hc <;> omega
    have hmX : -dy < 2 * (dx - dy + (dy * ((r + 1 : ℕ) : ℤ) - dx * (ry : ℤ))) := by
      linarith
    simp only [bresVisited]
    rw [if_neg hxne]
    simp only [if_pos hmX]
    by_cases hmY : 2 * (dx - dy + (dy * ((r + 1 : ℕ) : ℤ) - dx * (ry : ℤ))) < dx
    · -- diagonal step: y moves too, so ry ≥ 1
      have hry1 : 1 ≤ ry := by
        by_contra hc
        have : ry = 0 := by omega
        subst this
        simp only [Nat.cast_zero, mul_zero, sub_zero] at hmY
        have hmul : dy ≤ dy * ((r + 1 : ℕ) : ℤ) := by
          apply le_mul_of_one_le_right hdy
          rw [hr1]
          have : (0 : ℤ) ≤ (r : ℤ) := Int.natCast_nonneg r
          linarith
        linarith
      obtain ⟨rq, rfl⟩ : ∃ rq, ry = rq + 1 := ⟨ry - 1, by omega⟩
      simp only [if_pos hmY]
      have hrq1 : ((rq + 1 : ℕ) : ℤ) = (rq : ℤ) + 1 := by push_cast; ring
      have hax : x2 - sx * ((r + 1 : ℕ) : ℤ) + sx = x2 - sx * (r : ℤ) := by
        rw [hr1]; ring
      have hay : y2 - sy * ((rq + 1 : ℕ) : ℤ) + sy = y2 - sy * (rq : ℤ) := by
        rw [hrq1]; ring
      have hae : dx - dy + (dy * ((r + 1 : ℕ) : ℤ) - dx * ((rq + 1 : ℕ) : ℤ)) - dy + dx =
          dx - dy + (dy * (r : ℤ) - dx * (rq : ℤ)) := by
        rw [hr1, hrq1]; ring
      rw [hax, hay, hae]
      have hrec := ih rq f hf (by rw [hrq1] at hry; omega)
        (by
          have : 2 * (dy * (r : ℤ) - dx * (rq : ℤ)) =
              2 * (dy * ((r + 1 : ℕ) : ℤ) - dx * ((rq + 1 : ℕ) : ℤ)) - 2 * dy + 2 * dx := by
            rw [hr1, hrq1]; ring
          linarith)
      obtain ⟨hlen, hhead, hchain, hmem⟩ := hrec
      refine ⟨by simp [hlen], rfl, ?_, ?_⟩
      · rw [List.chain'_cons']
        refine ⟨?_, hchain⟩
        intro q hq
        rw [hhead] at hq
        simp only [Option.mem_def, Option.some.injEq] at hq
        subst hq
        apply adjStep_mk
        · rcases hsx with h | h <;> rw [h, hr1] <;> omega
        · rcases hsy with h | h <;> rw [h, hrq1] <;> omega
        · rintro ⟨hc, -⟩
          rcases hsx with h | h <;> rw [h, hr1] at hc <;> omega
      · intro p hp
        rcases List.mem_cons.mp hp with rfl | hp
        · exact ⟨r + 1, rq + 1, le_refl _, le_refl _, rfl⟩
        · obtain ⟨a, b, ha, hb, rfl⟩ := hmem p hp
          exact ⟨a, b, by omega, by omega, rfl⟩
    · -- x-only step
      simp only [if_neg hmY]
      have hax : x2 - sx * ((r + 1 : ℕ) : ℤ) + sx = x2 - sx * (r : ℤ) := by
        rw [hr1]; ring
      have hae : dx - dy + (dy * ((r + 1 : ℕ) : ℤ) - dx * (ry : ℤ)) - dy + 0 =
          dx - dy + (dy * (r : ℤ) - dx * (ry : ℤ)) := by
        rw [hr1]; ring
      rw [hax, hae]
      have hrec := ih ry f hf hry
        (by
          have heq : 2 * (dy * (r : ℤ) - dx * (ry : ℤ)) =
              2 * (dy * ((r + 1 : ℕ) : ℤ) - dx * (ry : ℤ)) - 2 * dy := by
            rw [hr1]; ring
          have hge : dx ≤ 2 * (dx - dy + (dy * ((r + 1 : ℕ) : ℤ) - dx * (ry : ℤ))) := by
            linarith
          linarith)
      obtain ⟨hlen, hhead, hchain, hmem⟩ := hrec
      refine ⟨by simp [hlen], rfl, ?_, ?_⟩
      · rw [List.chain'_cons']
        refine ⟨?_, hchain⟩
        intro q hq
        rw [hhead] at hq
        simp only [Option.mem_def, Option.some.injEq] at hq
        subst hq
        apply adjStep_mk
        · rcases hsx with h | h <;> rw [h, hr1] <;> omega
        · omega
        · rintro ⟨hc, -⟩
          rcases hsx with h | h <;> rw [h, hr1] at hc <;> omega
      · intro p hp
        rcases List.mem_cons.mp hp with rfl | hp
        · exact ⟨r + 1, ry, le_refl _, le_refl _, rfl⟩
        · obtain ⟨a, b, ha, hb, rfl⟩ := hmem p hp
          exact ⟨a, b, by omega, hb, rfl⟩

end PdsModel

namespace PdsModel

theorem bres_run_diag (x2 y2 sx sy d : ℤ) (hsx : sx = 1 ∨ sx = -1)
    (hsy : sy = 1 ∨ sy = -1) :
    ∀ (r fuel : ℕ), r < fuel → (r : ℤ) ≤ d →
      bresOk x2 y2 sx sy r r r
        (bresVisited x2 y2 sx sy d d fuel (x2 - sx * r) (y2 - sy * r) 0) := by
  intro r
  induction r with
  | zero =>
    intro fuel hfuel _hr
    obtain ⟨f, rfl⟩ : ∃ f, fuel = f + 1 := ⟨fuel - 1, by omega⟩
    unfold bresOk
    simp only [Nat.cast_zero, mul_zero, sub_zero]
    simp only [bresVisited]
    simp only [and_self, if_true]
    refine ⟨rfl, rfl, List.chain'_singleton _, ?_⟩
    intro p hp
    rw [List.mem_singleton] at hp
    subst hp
    exact ⟨0, 0, le_refl 0, le_refl 0, by simp⟩
  | succ r ih =>
    intro fuel hfuel hr
    obtain ⟨f, rfl⟩ : ∃ f, fuel = f + 1 := ⟨fuel - 1, by omega⟩
    have hf : r < f := by omega
    have hr1 : ((r + 1 : ℕ) : ℤ) = (r : ℤ) + 1 := by push_cast; ring
    have hd1 : 1 ≤ d := by
      have h0 : (0 : ℤ) ≤ (r : ℤ) := Int.natCast_nonneg r
      rw [hr1] at hr
      linarith
    have hxne : ¬(x2 - sx * ((r + 1 : ℕ) : ℤ) = x2 ∧ y2 - sy * ((r + 1 : ℕ) : ℤ) = y2) := by
      rintro ⟨hc, -⟩
      rcases hsx with h | h <;> rw [h, hr1] at hc <;> omega
    have hmX : -d < 2 * (0 : ℤ) := by omega
    have hmY : 2 * (0 : ℤ) < d := by omega
    simp only [bresVisited]
    rw [if_neg hxne]
    simp only [if_pos hmX, if_pos hmY]
    have hax : x2 - sx * ((r + 1 : ℕ) : ℤ) + sx = x2 - sx * (r : ℤ) := by rw [hr1]; ring
    have hay : y2 - sy * ((r + 1 : ℕ) : ℤ) + sy = y2 - sy * (r : ℤ) := by rw [hr1]; ring
    have hae : (0 : ℤ) - d + d = 0 := by ring
    rw [hax, hay, hae]
    have hrec := ih f hf (by rw [hr1] at hr; omega)
    obtain ⟨hlen, hhead, hchain, hmem⟩ := hrec
    refine ⟨by simp [hlen], rfl, ?_, ?_⟩
    · rw [List.chain'_cons']
      refine ⟨?_, hchain⟩
      intro q hq
      rw [hhead] at hq
      simp only [Option.mem_def, Option.some.injEq] at hq
      subst hq
      apply adjStep_mk
      · rcases hsx with h | h <;> rw [h, hr1] <;> omega
      · rcases hsy with h | h <;> rw [h, hr1] <;> omega
      · rintro ⟨hc, -⟩
        rcases hsx with h | h <;> rw [h, hr1] at hc <;> omega
    · intro p hp
      rcases List.mem_cons.mp hp with rfl | hp
      · exact ⟨r + 1, r + 1, le_refl _, le_refl _, rfl⟩
      · obtain ⟨a, b, ha, hb, rfl⟩ := hmem p hp
        exact ⟨a, b, by omega, by omega, rfl⟩

theorem bres_run_y (x2 y2 sx sy dx dy : ℤ) (hsx : sx = 1 ∨ sx = -1)
    (hsy : sy = 1 ∨ sy = -1) (hdx : 0 ≤ dx) (hlt : dx < dy) :
    ∀ (ry rx fuel : ℕ), ry < fuel → (rx : ℤ) ≤ dx →
      2 * (dy * rx - dx * ry) ≤ dy →
      bresOk x2 y2 sx sy rx ry ry
        (bresVisited x2 y2 sx sy dx dy fuel (x2 - sx * rx) (y2 - sy * ry)
          (dx - dy + (dy * rx - dx * ry))) := by
  intro ry
  induction ry with
  | zero =>
    intro rx fuel hfuel hrx hinv
    have hdy1 : 1 ≤ dy := by omega
    have hrx0 : rx = 0 := by
      by_contra hne
      have h1 : (1 : ℤ) ≤ (rx : ℤ) := by
        have : 1 ≤ rx := Nat.one_le_iff_ne_zero.mpr hne
        exact_mod_cast this
      have hmul : dy ≤ dy * (rx : ℤ) := le_mul_of_one_le_right (by omega) h1
      simp only [Nat.cast_zero, mul_zero, sub_zero] at hinv
      linarith
    subst hrx0
    obtain ⟨f, rfl⟩ : ∃ f, fuel = f + 1 := ⟨fuel - 1, by omega⟩
    unfold bresOk
    simp only [Nat.cast_zero, mul_zero, sub_zero, sub_self, add_zero]
    simp only [bresVisited]
    simp only [and_self, if_true]
    refine ⟨rfl, rfl, List.chain'_singleton _, ?_⟩
    intro p hp
    rw [List.mem_singleton] at hp
    subst hp
    exact ⟨0, 0, le_refl 0, le_refl 0, by simp⟩
  | succ r ih =>
    intro rx fuel hfuel hrx hinv
    obtain ⟨f, rfl⟩ : ∃ f, fuel = f + 1 := ⟨fuel - 1, by omega⟩
    have hf : r < f := by omega
    have hdy1 : 1 ≤ dy := by omega
    have hr1 : ((r + 1 : ℕ) : ℤ) = (r : ℤ) + 1 := by push_cast; ring
    have hyne : ¬(x2 - sx * (rx : ℤ) = x2 ∧ y2 - sy * ((r + 1 : ℕ) : ℤ) = y2) := by
      rintro ⟨-, hc⟩
      rcases hsy with h | h <;> rw [h, hr1] at hc <;> omega
    have hmY : 2 * (dx - dy + (dy * (rx : ℤ) - dx * ((r + 1 : ℕ) : ℤ))) < dx := by
      linarith
    simp only [bresVisited]
    rw [if_neg hyne]
    simp only [if_pos hmY]
    by_cases hmX : -dy < 2 * (dx - dy + (dy * (rx : ℤ) - dx * ((r + 1 : ℕ) : ℤ)))
    · -- diagonal step: x moves too, so rx ≥ 1
      have hrx1 : 1 ≤ rx := by
        by_contra hc
        have : rx = 0 := by omega
        subst this
        simp only [Nat.cast_zero, mul_zero, zero_sub] at hmX
        have hmul : dx ≤ dx * ((r + 1 : ℕ) : ℤ) := by
          apply le_mul_of_one_le_right hdx
          rw [hr1]
          have h0 : (0 : ℤ) ≤ (r : ℤ) := Int.natCast_nonneg r
          linarith
        linarith
      obtain ⟨rq, rfl⟩ : ∃ rq, rx = rq + 1 := ⟨rx - 1, by omega⟩
      simp only [if_pos hmX]
      have hrq1 : ((rq + 1 : ℕ) : ℤ) = (rq : ℤ) + 1 := by push_cast; ring
      have hax : x2 - sx * ((rq + 1 : ℕ) : ℤ) + sx = x2 - sx * (rq : ℤ) := by
        rw [hrq1]; ring
      have hay : y2 - sy * ((r + 1 : ℕ) : ℤ) + sy = y2 - sy * (r : ℤ) := by
        rw [hr1]; ring
      have hae : dx - dy + (dy * ((rq + 1 : ℕ) : ℤ) - dx * ((r + 1 : ℕ) : ℤ)) - dy + dx =
          dx - dy + (dy * (rq : ℤ) - dx * (r : ℤ)) := by
        rw [hr1, hrq1]; ring
      rw [hax, hay, hae]
      have hrec := ih rq f hf (by rw [hrq1] at hrx; omega)
        (by
          have heq : 2 * (dy * (rq : ℤ) - dx * (r : ℤ)) =
              2 * (dy * ((rq + 1 : ℕ) : ℤ) - dx * ((r + 1 : ℕ) : ℤ)) - 2 * dy + 2 * dx := by
            rw [hr1, hrq1]; ring
          linarith)
      obtain ⟨hlen, hhead, hchain, hmem⟩ := hrec
      refine ⟨by simp [hlen], rfl, ?_, ?_⟩
      · rw [List.chain'_cons']
        refine ⟨?_, hchain⟩
        intro q hq
        rw [hhead] at hq
        simp only [Option.mem_def, Option.some.injEq] at hq
        subst hq
        apply adjStep_mk
        · rcases hsx with h | h <;> rw [h, hrq1] <;> omega
        · rcases hsy with h | h <;> rw [h, hr1] <;> omega
        · rintro ⟨-, hc⟩
          rcases hsy with h | h <;> rw [h, hr1] at hc <;> omega
      · intro p hp
        rcases List.mem_cons.mp hp with rfl | hp
        · exact ⟨rq + 1, r + 1, le_refl _, le_refl _, rfl⟩
        · obtain ⟨a, b, ha, hb, rfl⟩ := hmem p hp
          exact ⟨a, b, by omega, by omega, rfl⟩
    · -- y-only step
      simp only [if_neg hmX]
      have hay : y2 - sy * ((r + 1 : ℕ) : ℤ) + sy = y2 - sy * (r : ℤ) := by
        rw [hr1]; ring
      have hae : dx - dy + (dy * (rx : ℤ) - dx * ((r + 1 : ℕ) : ℤ)) + dx =
          dx - dy + (dy * (rx : ℤ) - dx * (r : ℤ)) := by
        rw [hr1]; ring
      rw [hay, hae]
      have hrec := ih rx f hf hrx
        (by
          have heq : 2 * (dy * (rx : ℤ) - dx * (r : ℤ)) =
              2 * (dy * (rx : ℤ) - dx * ((r + 1 : ℕ) : ℤ)) + 2 * dx := by
            rw [hr1]; ring
          have hle : 2 * (dx - dy + (dy * (rx : ℤ) - dx * ((r + 1 : ℕ) : ℤ))) ≤ -dy := by
            linarith
          linarith)
      obtain ⟨hlen, hhead, hchain, hmem⟩ := hrec
      refine ⟨by simp [hlen], rfl, ?_, ?_⟩
      · rw [List.chain'_cons']
        refine ⟨?_, hchain⟩
        intro q hq
        rw [hhead] at hq
        simp only [Option.mem_def, Option.some.injEq] at hq
        subst hq
        apply adjStep_mk
        · omega
        · rcases hsy with h | h <;> rw [h, hr1] <;> omega
        · rintro ⟨-, hc⟩
          rcases hsy with h | h <;> rw [h, hr1] at hc <;> omega
      · intro p hp
        rcases List.mem_cons.mp hp with rfl | hp
        · exact ⟨rx, r + 1, le_refl _, le_refl _, rfl⟩
        · obtain ⟨a, b, ha, hb, rfl⟩ := hmem p hp
          exact ⟨a, b, ha, by omega, rfl⟩

end PdsModel

namespace PdsModel

theorem bres_mem_bounds (x1 y1 x2 y2 : ℕ) (sx sy dx dy : ℤ) (a b : ℕ)
    (hsx : sx = 1 ∨ sx = -1) (hsy : sy = 1 ∨ sy = -1)
    (hxeq : (x1 : ℤ) = x2 - sx * dx) (hyeq : (y1 : ℤ) = y2 - sy * dy)
    (h1 : x1 < MATRIX_WIDTH) (h2 : y1 < MATRIX_HEIGHT) (h3 : x2 < MATRIX_WIDTH)
    (h4 : y2 < MATRIX_HEIGHT)
    (haz : (a : ℤ) ≤ dx) (hbz : (b : ℤ) ≤ dy) :
    0 ≤ (x2 : ℤ) - sx * a ∧ (x2 : ℤ) - sx * a < (MATRIX_WIDTH : ℤ) ∧
    0 ≤ (y2 : ℤ) - sy * b ∧ (y2 : ℤ) - sy * b < (MATRIX_HEIGHT : ℤ) := by
  simp only [MATRIX_WIDTH, MATRIX_HEIGHT] at h1 h2 h3 h4 ⊢
  rcases hsx with h | h <;> rcases hsy with h' | h' <;>
    rw [h] at hxeq ⊢ <;> rw [h'] at hyeq ⊢ <;> omega

/-- C4: for endpoints inside `[0,W)×[0,H)`, `drawLine` terminates and
writes exactly `max(|x2-x1|, |y2-y1|) + 1` cells, each cell one unit step
(in x, in y, or in both) from the previously written cell; every visited
cell lies inside the matrix, so each is actually written. -/
theorem drawLine_cellCount (x1 y1 x2 y2 : ℕ)
    (h1 : x1 < MATRIX_WIDTH) (h2 : y1 < MATRIX_HEIGHT)
    (h3 : x2 < MATRIX_WIDTH) (h4 : y2 < MATRIX_HEIGHT) :
    (drawLinePoints x1 y1 x2 y2).length =
      max ((x2 : ℤ) - x1).natAbs ((y2 : ℤ) - y1).natAbs + 1 ∧
    List.Chain' adjStep (drawLinePoints x1 y1 x2 y2) ∧
    ∀ p ∈ drawLinePoints x1 y1 x2 y2,
      0 ≤ p.1 ∧ p.1 < (MATRIX_WIDTH : ℤ) ∧ 0 ≤ p.2 ∧ p.2 < (MATRIX_HEIGHT : ℤ) := by
  unfold drawLinePoints
  rw [if_neg (by omega)]
  set dx : ℤ := |(x2 : ℤ) - (x1 : ℤ)| with hdxdef
  set dy : ℤ := |(y2 : ℤ) - (y1 : ℤ)| with hdydef
  set sx : ℤ := if (x1 : ℤ) < (x2 : ℤ) then 1 else -1 with hsxdef
  set sy : ℤ := if (y1 : ℤ) < (y2 : ℤ) then 1 else -1 with hsydef
  have hsx1 : sx = 1 ∨ sx = -1 := by
    rw [hsxdef]
    by_cases h : (x1 : ℤ) < (x2 : ℤ)
    · rw [if_pos h]; left; rfl
    · rw [if_neg h]; right; rfl
  have hsy1 : sy = 1 ∨ sy = -1 := by
    rw [hsydef]
    by_cases h : (y1 : ℤ) < (y2 : ℤ)
    · rw [if_pos h]; left; rfl
    · rw [if_neg h]; right; rfl
  have hdx0 : 0 ≤ dx := abs_nonneg _
  have hdy0 : 0 ≤ dy := abs_nonneg _
  have hxeq : (x1 : ℤ) = x2 - sx * dx := by
    rw [hsxdef, hdxdef]
    by_cases h : (x1 : ℤ) < (x2 : ℤ)
    · rw [if_pos h, abs_of_nonneg (by omega : (0 : ℤ) ≤ (x2 : ℤ) - (x1 : ℤ))]
      ring
    · rw [if_neg h, abs_of_nonpos (by omega : (x2 : ℤ) - (x1 : ℤ) ≤ 0)]
      ring
  have hyeq : (y1 : ℤ) = y2 - sy * dy := by
    rw [hsydef, hdydef]
    by_cases h : (y1 : ℤ) < (y2 : ℤ)
    · rw [if_pos h, abs_of_nonneg (by omega : (0 : ℤ) ≤ (y2 : ℤ) - (y1 : ℤ))]
      ring
    · rw [if_neg h, abs_of_nonpos (by omega : (y2 : ℤ) - (y1 : ℤ) ≤ 0)]
      ring
  have hdxt : ((dx.toNat : ℕ) : ℤ) = dx := Int.toNat_of_nonneg hdx0
  have hdyt : ((dy.toNat : ℕ) : ℤ) = dy := Int.toNat_of_nonneg hdy0
  have hnx : ((x2 : ℤ) - (x1 : ℤ)).natAbs = dx.toNat := by
    rw [hdxdef, Int.abs_eq_natAbs, Int.toNat_natCast]
  have hny : ((y2 : ℤ) - (y1 : ℤ)).natAbs = dy.toNat := by
    rw [hdydef, Int.abs_eq_natAbs, Int.toNat_natCast]
  rcases lt_trichotomy dy dx with hc | hc | hc
  · -- x-dominant
    have hrun := bres_run_x x2 y2 sx sy dx dy hsx1 hsy1 hdy0 hc dx.toNat dy.toNat
      (dx + dy + 1).toNat (by omega) (by omega)
      (by rw [hdxt, hdyt, mul_comm dy dx, sub_self, mul_zero]; omega)
    rw [hdxt, hdyt] at hrun
    have herr : dx - dy + (dy * dx - dx * dy) = dx - dy := by ring
    rw [herr, ← hxeq, ← hyeq] at hrun
    obtain ⟨hlen, -, hchain, hmem⟩ := hrun
    refine ⟨?_, hchain, ?_⟩
    · rw [hlen, hnx, hny]
      omega
    · intro p hp
      obtain ⟨a, b, ha, hb, rfl⟩ := hmem p hp
      exact bres_mem_bounds x1 y1 x2 y2 sx sy dx dy a b hsx1 hsy1 hxeq hyeq
        h1 h2 h3 h4 (by omega) (by omega)
  · -- diagonal
    rw [hc] at hdy0 hyeq hny hdyt ⊢
    rw [sub_self]
    have hrun := bres_run_diag x2 y2 sx sy dx hsx1 hsy1 dx.toNat
      (dx + dx + 1).toNat (by omega) (by omega)
    rw [hdxt] at hrun
    rw [← hxeq, ← hyeq] at hrun
    obtain ⟨hlen, -, hchain, hmem⟩ := hrun
    refine ⟨?_, hchain, ?_⟩
    · rw [hlen, hnx, hny]
      omega
    · intro p hp
      obtain ⟨a, b, ha, hb, rfl⟩ := hmem p hp
      exact bres_mem_bounds x1 y1 x2 y2 sx sy dx dx a b hsx1 hsy1 hxeq hyeq
        h1 h2 h3 h4 (by omega) (by omega)
  · -- y-dominant
    have hrun := bres_run_y x2 y2 sx sy dx dy hsx1 hsy1 hdx0 hc dy.toNat dx.toNat
      (dx + dy + 1).toNat (by omega) (by omega)
      (by rw [hdxt, hdyt, mul_comm dy dx, sub_self, mul_zero]; omega)
    rw [hdxt, hdyt] at hrun
    have herr : dx - dy + (dy * dx - dx * dy) = dx - dy := by ring
    rw [herr, ← hxeq, ← hyeq] at hrun
    obtain ⟨hlen, -, hchain, hmem⟩ := hrun
    refine ⟨?_, hchain, ?_⟩
    · rw [hlen, hnx, hny]
      omega
    · intro p hp
      obtain ⟨a, b, ha, hb, rfl⟩ := hmem p hp
      exact bres_mem_bounds x1 y1 x2 y2 sx sy dx dy a b hsx1 hsy1 hxeq hyeq
        h1 h2 h3 h4 (by omega) (by omega)

/-- Witness for C4 at a concrete input: the segment `(0,0)`–`(3,1)` visits
exactly `max(3,1)+1 = 4` cells, adjacent in sequence, all inside the
matrix. -/
theorem drawLine_cellCount_witness :
    (drawLinePoints 0 0 3 1).length = max ((3 : ℤ) - 0).natAbs ((1 : ℤ) - 0).natAbs + 1 ∧
    List.Chain' adjStep (drawLinePoints 0 0 3 1) ∧
    ∀ p ∈ drawLinePoints 0 0 3 1,
      0 ≤ p.1 ∧ p.1 < (MATRIX_WIDTH : ℤ) ∧ 0 ≤ p.2 ∧ p.2 < (MATRIX_HEIGHT : ℤ) :=
  drawLine_cellCount 0 0 3 1 (by decide) (by decide) (by decide) (by decide)

end PdsModel
